import Mathlib

/-!
The bolt-observer agent: helpers, settings registry and channel cache.

A shallow embedding of

* `lightning_api/cln_helpers.go` (`ToLndChanId`, `FromLndChanId`, `ConvertAmount`,
  `ConvertFeatures`),
* `nodedata/settings.go` (`GlobalSettings`),
* `channelchecker/redischannelcache.go` (`RedisChannelCache`),

together with the properties proved about them.

Go strings are modelled as lists of Unicode code points (`GoString`), Go maps as
association lists with pairwise distinct keys (`GoMap`), `uint64` values as natural
numbers reduced modulo `2 ^ 64` where the source can wrap.
-/

namespace Agent

/-! ## Go strings and the standard-library routines the helpers call -/

/-- A Go string (valid UTF-8), one `Char` per code point. -/
abbrev GoString := List Char

/-- The byte `'0' + d` that the integer formatter writes for the digit `d`. -/
def digitByte (d : Nat) : Char := Char.ofNat (48 + d)

/-- The digit loop of `fmt`'s integer formatter: while `u >= 10` the last digit is
written in front of what was written so far and `u` is divided by ten; the remaining
`u` is the leading digit.  `fuel` bounds the number of passes. -/
def fmtDigits : Nat → Nat → GoString → GoString
  | 0, u, acc => digitByte (u % 10) :: acc
  | fuel + 1, u, acc =>
    if 10 ≤ u then fmtDigits fuel (u / 10) (digitByte (u % 10) :: acc)
    else digitByte u :: acc

/-- `fmt.Sprintf("%d", u)` for an unsigned magnitude `u`.  Each pass of the digit loop
divides by ten, so `u` passes are more than enough. -/
def fmtNat (u : Nat) : GoString := fmtDigits u u []

/-- `fmt.Sprintf("%d", z)` for a signed integer. -/
def Sprintf_d : Int → GoString
  | Int.ofNat n => fmtNat n
  | Int.negSucc n => '-' :: fmtNat (n + 1)

/-- The digit value the Go number scanners give a byte: `'0'..'9'` are 0..9 and
letters of either case are 10..35; every other byte (all bytes of a non-ASCII code
point among them) is no digit. -/
def digitVal (c : Char) : Option Nat :=
  if 48 ≤ c.toNat ∧ c.toNat ≤ 57 then some (c.toNat - 48)
  else if 97 ≤ c.toNat ∧ c.toNat ≤ 122 then some (c.toNat - 97 + 10)
  else if 65 ≤ c.toNat ∧ c.toNat ≤ 90 then some (c.toNat - 65 + 10)
  else none

/-- The two errors of `strconv`: `ErrSyntax` and `ErrRange`. -/
inductive NumError where
  | invalid
  | outOfRange
  deriving DecidableEq, Repr

/-- The largest `uint64`. -/
def maxUint64 : Nat := 2 ^ 64 - 1

/-- The loop of `strconv.ParseUint(s, 10, 64)` over the bytes of `s`, with `n` the
value accumulated so far.  `cutoff = maxUint64/10 + 1`, `maxVal = 2^64 - 1`; the
multiplication and the addition are `uint64` operations. -/
def parseUintLoop : GoString → Nat → Nat × Option NumError
  | [], n => (n, none)
  | c :: cs, n =>
    match digitVal c with
    | none => (0, some NumError.invalid)
    | some d =>
      if 10 ≤ d then (0, some NumError.invalid)
      else if maxUint64 / 10 + 1 ≤ n then (maxUint64, some NumError.outOfRange)
      else
        let n10 := (n * 10) % 2 ^ 64
        let n1 := (n10 + d) % 2 ^ 64
        if n1 < n10 ∨ maxUint64 < n1 then (maxUint64, some NumError.outOfRange)
        else parseUintLoop cs n1

/-- `strconv.ParseUint(s, 10, 64)`: the empty string is a syntax error, otherwise the
digit loop decides. -/
def ParseUint (s : GoString) : Nat × Option NumError :=
  if s = [] then (0, some NumError.invalid) else parseUintLoop s 0

/-- `strings.Split(s, sep)` for a one-byte separator: the pieces of `s` between the
occurrences of `sep`, one more than there are occurrences. -/
def Split (sep : Char) : GoString → List GoString
  | [] => [[]]
  | c :: cs =>
    if c = sep then [] :: Split sep cs
    else
      match Split sep cs with
      | [] => [[c]]
      | p :: ps => (c :: p) :: ps

/-- Lower-casing of one ASCII byte. -/
def asciiLower (c : Char) : Char :=
  if 65 ≤ c.toNat ∧ c.toNat ≤ 90 then Char.ofNat (c.toNat + 32) else c

/-- `strings.ToLower`: ASCII letters are lower-cased by adding `'a' - 'A'`; a code
point outside ASCII is mapped by the Unicode case table, which is the parameter
`special`. -/
def ToLower (special : Char → Char) (s : GoString) : GoString :=
  s.map fun c => if c.toNat < 128 then asciiLower c else special c

/-- `strings.ReplaceAll(s, "msat", "")`: the occurrences of `msat` are removed from
left to right, without rescanning what a removal joins together. -/
def removeMsat : GoString → GoString
  | 'm' :: 's' :: 'a' :: 't' :: rest => removeMsat rest
  | c :: cs => c :: removeMsat cs
  | [] => []

/-! ## `lightning_api/cln_helpers.go` -/

/-- The errors `ToLndChanId` returns: its own "wrong channel id" or that of
`strconv.ParseUint`. -/
inductive ChanIdError where
  | wrongChannelId
  | parse (e : NumError)
  deriving DecidableEq, Repr

/-- `ToLndChanId`: the pair `(result, err)` the Go function returns. -/
def ToLndChanId (special : Char → Char) (id : GoString) : Nat × Option ChanIdError :=
  match Split 'x' (ToLower special id) with
  | [s0, s1, s2] =>
    match ParseUint s0 with
    | (_, some e) => (0, some (ChanIdError.parse e))
    | (blockId, none) =>
      match ParseUint s1 with
      | (_, some e) => (0, some (ChanIdError.parse e))
      | (txIdx, none) =>
        match ParseUint s2 with
        | (_, some e) => (0, some (ChanIdError.parse e))
        | (outputIdx, none) =>
          ((((blockId &&& 0xffffff) <<< 40) % 2 ^ 64)
            ||| (((txIdx &&& 0xffffff) <<< 16) % 2 ^ 64)
            ||| (outputIdx &&& 0xffff), none)
  | _ => (0, some ChanIdError.wrongChannelId)

/-- The conversion `int64(u)` of a `uint64` (also `int(u)` on a 64-bit platform). -/
def toInt64 (u : Nat) : Int :=
  if u % 2 ^ 64 < 2 ^ 63 then (u % 2 ^ 64 : Nat) else ((u % 2 ^ 64 : Nat) : Int) - 2 ^ 64

/-- `FromLndChanId`. -/
def FromLndChanId (chanId : Nat) : GoString :=
  let blockId := toInt64 ((chanId &&& 0xffffff0000000000) >>> 40)
  let txIdx := toInt64 ((chanId &&& 0x000000ffffff0000) >>> 16)
  let outputIdx := toInt64 (chanId &&& 0x000000000000ffff)
  Sprintf_d blockId ++ 'x' :: Sprintf_d txIdx ++ 'x' :: Sprintf_d outputIdx

/-- `ConvertAmount`: a parse error is logged and gives 0. -/
def ConvertAmount (s : GoString) : Nat :=
  let x := removeMsat s
  match ParseUint x with
  | (_, some _) => 0
  | (ret, none) => ret

/-! ## Decimal strings: what the formatter writes and what the parser accepts -/

/-- The value of a digit string read in base ten, continuing from `init`. -/
def decFold (init : Nat) (s : GoString) : Nat :=
  s.foldl (fun acc c => acc * 10 + (c.toNat - 48)) init

/-- The value of a digit string read in base ten. -/
def decVal (s : GoString) : Nat := decFold 0 s

/-- A byte is one of `'0'..'9'`. -/
def IsDigit (c : Char) : Prop := 48 ≤ c.toNat ∧ c.toNat ≤ 57

instance (c : Char) : Decidable (IsDigit c) := by unfold IsDigit; infer_instance

/-- An unsigned decimal integer literal: one or more digits, nothing else. -/
def IsDecimal (s : GoString) : Prop := s ≠ [] ∧ ∀ c ∈ s, IsDigit c

instance (s : GoString) : Decidable (IsDecimal s) := by unfold IsDecimal; infer_instance

/-- An unsigned decimal integer literal whose value fits a `uint64`. -/
def IsUint64Literal (s : GoString) : Prop := IsDecimal s ∧ decVal s < 2 ^ 64

instance (s : GoString) : Decidable (IsUint64Literal s) := by
  unfold IsUint64Literal; infer_instance


/-- The string `s` splits on `x` into exactly the three parts `a`, `b`, `c`. -/
def ChanIdParts (s a b c : GoString) : Prop :=
  s = a ++ 'x' :: (b ++ 'x' :: c) ∧ 'x' ∉ a ∧ 'x' ∉ b ∧ 'x' ∉ c

/-- A well-formed channel id: three parts separated by `x`, each an unsigned decimal
integer below `2 ^ 64`. -/
def WellFormedChanId (s : GoString) : Prop :=
  ∃ a b c, ChanIdParts s a b c ∧ IsUint64Literal a ∧ IsUint64Literal b ∧ IsUint64Literal c

/-! ## Go maps with string keys -/

/-- A Go `map[string]V`: its entries in some order, no key twice.  The order stands
for the order in which a `range` loop visits the map, which Go leaves open; every
order is the entry list of some `GoMap`. -/
structure GoMap (V : Type) where
  entries : List (GoString × V)
  nodup : (entries.map Prod.fst).Nodup

/-- The value stored under `k` in an entry list, if any. -/
def lookupEntry {V : Type} (k : GoString) : List (GoString × V) → Option V
  | [] => none
  | e :: es => if e.1 = k then some e.2 else lookupEntry k es

/-- `make(map[string]V)`. -/
def GoMap.empty {V : Type} : GoMap V := ⟨[], List.nodup_nil⟩

/-- `v, ok := m[k]`. -/
def GoMap.get? {V : Type} (m : GoMap V) (k : GoString) : Option V := lookupEntry k m.entries

/-- `m[k] = v`: the entry of `k` is replaced or added. -/
def GoMap.set {V : Type} (m : GoMap V) (k : GoString) (v : V) : GoMap V :=
  ⟨(k, v) :: m.entries.filter (fun e => !decide (e.1 = k)), by
    rw [List.map_cons, List.nodup_cons]
    refine ⟨?_, m.nodup.sublist ((List.filter_sublist _).map _)⟩
    intro h
    obtain ⟨e, he, hk⟩ := List.mem_map.1 h
    have := (List.mem_filter.1 he).2
    simp only [Bool.not_eq_eq_eq_not, Bool.not_true, decide_eq_false_iff_not] at this
    exact this hk⟩

/-- `delete(m, k)`. -/
def GoMap.delete {V : Type} (m : GoMap V) (k : GoString) : GoMap V :=
  ⟨m.entries.filter (fun e => !decide (e.1 = k)),
    m.nodup.sublist ((List.filter_sublist _).map _)⟩

/-- `len(m)`. -/
def GoMap.len {V : Type} (m : GoMap V) : Nat := m.entries.length

/-- The loop `for k := range m { delete(m, k) }`. -/
def GoMap.deleteAll {V : Type} (m : GoMap V) : GoMap V :=
  m.entries.foldl (fun acc e => acc.delete e.1) m

/-! ## `nodedata/settings.go` -/

/-- `GlobalSettings`: the registry `data`; the mutex only serialises the calls.  The
struct `Settings` holds callbacks and values of other packages and is a parameter. -/
structure GlobalSettings (Settings : Type) where
  data : GoMap Settings

/-- `NewGlobalSettings`. -/
def NewGlobalSettings {Settings : Type} : GlobalSettings Settings := ⟨GoMap.empty⟩

/-- `GlobalSettings.Get`: `s.data[key]`, which is the zero value of `Settings` when the
key is absent. -/
def GlobalSettings.Get {Settings : Type} (zero : Settings) (s : GlobalSettings Settings)
    (key : GoString) : Settings :=
  match s.data.get? key with
  | some v => v
  | none => zero

/-- `GlobalSettings.Set`: `s.data[key] = value`. -/
def GlobalSettings.Set {Settings : Type} (s : GlobalSettings Settings) (key : GoString)
    (value : Settings) : GlobalSettings Settings :=
  ⟨s.data.set key value⟩

/-- `GlobalSettings.Delete`: `delete(s.data, key)`. -/
def GlobalSettings.Delete {Settings : Type} (s : GlobalSettings Settings) (key : GoString) :
    GlobalSettings Settings :=
  ⟨s.data.delete key⟩

/-! ## `channelchecker/redischannelcache.go` -/

/-- `OldNewVal`: the pair a deferred write keeps. -/
structure OldNewVal where
  OldValue : GoString
  NewValue : GoString
  deriving DecidableEq

/-- `RedisChannelCache`: `client` is the Redis store, a map from key to string on
which no command fails; `deferredCache` holds the pending writes. -/
structure RedisChannelCache where
  client : GoMap GoString
  env : GoString
  deferredCache : GoMap OldNewVal

/-- The store key `fmt.Sprintf("%s_%s", c.env, name)`. -/
def RedisChannelCache.storeKey (c : RedisChannelCache) (name : GoString) : GoString :=
  c.env ++ '_' :: name

/-- `RedisChannelCache.Get`: `EXISTS id` counts the key; when the count is not
positive the result is `("", false)`, otherwise the value of `GET id` and `true`. -/
def RedisChannelCache.Get (c : RedisChannelCache) (name : GoString) : GoString × Bool :=
  let existsVal : Nat := if (c.client.get? (c.storeKey name)).isSome then 1 else 0
  if ¬ (0 < existsVal) then ([], false)
  else ((c.client.get? (c.storeKey name)).getD [], true)

/-- `RedisChannelCache.Set`: `SET id value` without expiry. -/
def RedisChannelCache.Set (c : RedisChannelCache) (name value : GoString) :
    RedisChannelCache :=
  { c with client := c.client.set (c.storeKey name) value }

/-- `RedisChannelCache.DeferredSet`. -/
def RedisChannelCache.DeferredSet (c : RedisChannelCache) (name old new : GoString) :
    RedisChannelCache :=
  { c with deferredCache := c.deferredCache.set name ⟨old, new⟩ }

/-- One pass of the first loop of `DeferredCommit`, for the pending entry `k -> v`. -/
def RedisChannelCache.commitOne (c : RedisChannelCache) (e : GoString × OldNewVal) :
    RedisChannelCache :=
  let r := c.Get e.1
  if (!r.2) || r.1 = e.2.OldValue then c.Set e.1 e.2.NewValue else c

/-- `RedisChannelCache.DeferredCommit`: the pending entries are written in the order
the map yields them, then the pending map is emptied; the result is `true`. -/
def RedisChannelCache.DeferredCommit (c : RedisChannelCache) : RedisChannelCache × Bool :=
  let c1 := c.deferredCache.entries.foldl RedisChannelCache.commitOne c
  ({ c1 with deferredCache := c1.deferredCache.deleteAll }, true)

/-- `RedisChannelCache.DeferredRevert`: the pending map is emptied; the result is
`true`. -/
def RedisChannelCache.DeferredRevert (c : RedisChannelCache) : RedisChannelCache × Bool :=
  ({ c with deferredCache := c.deferredCache.deleteAll }, true)

/-! ## `ConvertFeatures` and `big.Int.SetString` -/

/-- `NodeFeatureApi`. -/
structure NodeFeatureApi where
  Name : GoString
  IsKnown : Bool
  IsRequired : Bool
  deriving DecidableEq, Repr

/-- The sign scanner of `big.Int`: a leading `-` or `+` is consumed, `-` sets the
sign; any other byte is left unread. -/
def scanSign : GoString → Bool × GoString
  | '-' :: r => (true, r)
  | '+' :: r => (false, r)
  | s => (false, s)

/-- The digit loop of the `big` natural-number scanner for base 16 (no prefix, no
separators, no fraction): digits are consumed while their value is below 16; the
result is the value, the number of digits and the unread rest. -/
def scanHex : GoString → Nat → Nat → Nat × Nat × GoString
  | [], v, count => (v, count, [])
  | c :: cs, v, count =>
    match digitVal c with
    | none => (v, count, c :: cs)
    | some d => if 16 ≤ d then (v, count, c :: cs) else scanHex cs (v * 16 + d) (count + 1)

/-- `new(big.Int).SetString(s, 16)`: `none` is the failure (`ok == false`).  The scan
fails when no digit was found, and `SetString` when input is left unread.  Zero has
no sign. -/
def SetString16 (s : GoString) : Option Int :=
  let sg := scanSign s
  let r := scanHex sg.2 0 0
  if r.2.1 = 0 then none
  else if r.2.2 ≠ [] then none
  else some (if sg.1 ∧ r.1 ≠ 0 then -(r.1 : Int) else (r.1 : Int))

/-- The loop of `ConvertFeatures`: while `n > 0`, `n, m = n / 2, n % 2`; a bit that is
set is entered under its decimal index.  `fuel` bounds the number of passes; `bit` is an
`int`, which cannot overflow here since it counts the bits of `n`. -/
def featuresLoop : Nat → Int → Nat → GoMap NodeFeatureApi → GoMap NodeFeatureApi
  | 0, _, _, result => result
  | fuel + 1, n, bit, result =>
    if 0 < n then
      let m := n % 2
      let q := n / 2
      if ¬ (0 < m) then featuresLoop fuel q (bit + 1) result
      else
        featuresLoop fuel q (bit + 1)
          (result.set (Sprintf_d (Int.ofNat bit))
            { Name := [], IsKnown := true, IsRequired := decide (bit % 2 = 0) })
    else result

/-- `ConvertFeatures`: `none` is the nil map returned when `SetString` fails.  Every
pass of the loop halves `n`, so `n` passes are more than enough. -/
def ConvertFeatures (features : GoString) : Option (GoMap NodeFeatureApi) :=
  match SetString16 features with
  | none => none
  | some n => some (featuresLoop n.toNat n 0 GoMap.empty)

/-- A byte is a hexadecimal digit of either case. -/
def IsHexDigit (c : Char) : Prop :=
  (48 ≤ c.toNat ∧ c.toNat ≤ 57) ∨ (97 ≤ c.toNat ∧ c.toNat ≤ 102) ∨
    (65 ≤ c.toNat ∧ c.toNat ≤ 70)

instance (c : Char) : Decidable (IsHexDigit c) := by unfold IsHexDigit; infer_instance

/-- The value of a hexadecimal digit. -/
def hexDigitVal (c : Char) : Nat :=
  if c.toNat ≤ 57 then c.toNat - 48
  else if 97 ≤ c.toNat then c.toNat - 87
  else c.toNat - 55

/-- The value of a string of hexadecimal digits, most significant digit first,
continuing from `init`. -/
def hexFold (init : Nat) (s : GoString) : Nat :=
  s.foldl (fun acc c => acc * 16 + hexDigitVal c) init

/-- The string `s` is a base-16 literal of the integer `z`: an optional sign `+` or
`-`, then one or more hexadecimal digits. -/
def IsHexLiteral (s : GoString) (z : Int) : Prop :=
  ∃ body : GoString, body ≠ [] ∧ (∀ c ∈ body, IsHexDigit c) ∧
    ((s = body ∧ z = (hexFold 0 body : Nat)) ∨
      (s = '+' :: body ∧ z = (hexFold 0 body : Nat)) ∨
      (s = '-' :: body ∧ z = -((hexFold 0 body : Nat) : Int)))

/-- The number of set bits of `n`. -/
def popcount (n : Nat) : Nat := (Nat.digits 2 n).sum

/-! ## A sample channel cache -/

/-- A cache in environment `develop` whose store holds `develop_a = 1` and
`develop_b = 9`, with the pending writes `a: 1 -> 2`, `b: 1 -> 3` and `c: "" -> 5`. -/
def sampleCache : RedisChannelCache :=
  { client :=
      ((GoMap.empty.set "develop_a".toList "1".toList).set "develop_b".toList "9".toList)
    env := "develop".toList
    deferredCache :=
      ((GoMap.empty.set "a".toList ⟨"1".toList, "2".toList⟩).set "b".toList
        ⟨"1".toList, "3".toList⟩).set "c".toList ⟨[], "5".toList⟩ }

/-! ## Decimal strings: formatter and parser -/

theorem digitByte_toNat (d : Nat) (h : d < 10) : (digitByte d).toNat = 48 + d := by
  interval_cases d <;> rfl

theorem digitByte_isDigit (d : Nat) (h : d < 10) : IsDigit (digitByte d) := by
  unfold IsDigit
  rw [digitByte_toNat d h]
  omega

theorem decFold_append (init : Nat) (a b : GoString) :
    decFold init (a ++ b) = decFold (decFold init a) b := by
  simp [decFold, List.foldl_append]

theorem decFold_cons (init : Nat) (c : Char) (s : GoString) :
    decFold init (c :: s) = decFold (init * 10 + (c.toNat - 48)) s := rfl

theorem decFold_nil (init : Nat) : decFold init [] = init := rfl

theorem le_decFold (s : GoString) : ∀ init, init ≤ decFold init s := by
  induction s with
  | nil => intro init; exact Nat.le_refl _
  | cons c cs ih =>
    intro init
    rw [decFold_cons]
    have := ih (init * 10 + (c.toNat - 48))
    omega

theorem fmtDigits_acc (fuel : Nat) : ∀ u acc,
    fmtDigits fuel u acc = fmtDigits fuel u [] ++ acc := by
  induction fuel with
  | zero => intro u acc; simp [fmtDigits]
  | succ f ih =>
    intro u acc
    unfold fmtDigits
    split
    · rw [ih (u / 10) (digitByte (u % 10) :: acc), ih (u / 10) [digitByte (u % 10)]]
      simp
    · simp

theorem fmtDigits_decFold (fuel : Nat) : ∀ u, u ≤ fuel →
    decFold 0 (fmtDigits fuel u []) = u := by
  induction fuel with
  | zero =>
    intro u hu
    have : u = 0 := by omega
    subst this
    rfl
  | succ f ih =>
    intro u hu
    unfold fmtDigits
    split
    · rename_i h10
      rw [fmtDigits_acc, decFold_append, ih (u / 10) (by omega), decFold_cons, decFold_nil,
        digitByte_toNat _ (Nat.mod_lt _ (by decide))]
      omega
    · rename_i h10
      rw [decFold_cons, decFold_nil, digitByte_toNat _ (by omega)]
      omega

theorem fmtDigits_digits (fuel : Nat) : ∀ u, u ≤ fuel →
    ∀ c ∈ fmtDigits fuel u [], IsDigit c := by
  induction fuel with
  | zero =>
    intro u hu c hc
    simp only [fmtDigits, List.mem_singleton] at hc
    subst hc
    exact digitByte_isDigit _ (Nat.mod_lt _ (by decide))
  | succ f ih =>
    intro u hu c hc
    unfold fmtDigits at hc
    split at hc
    · rw [fmtDigits_acc] at hc
      rcases List.mem_append.1 hc with h | h
      · exact ih (u / 10) (by omega) c h
      · simp only [List.mem_singleton] at h
        subst h
        exact digitByte_isDigit _ (Nat.mod_lt _ (by decide))
    · simp only [List.mem_singleton] at hc
      subst hc
      exact digitByte_isDigit _ (by omega)

theorem fmtDigits_ne_nil (fuel u : Nat) : fmtDigits fuel u [] ≠ [] := by
  cases fuel with
  | zero => simp [fmtDigits]
  | succ f =>
    unfold fmtDigits
    split
    · rw [fmtDigits_acc]; simp
    · simp

theorem decVal_fmtNat (n : Nat) : decVal (fmtNat n) = n :=
  fmtDigits_decFold n n (Nat.le_refl n)

theorem isDecimal_fmtNat (n : Nat) : IsDecimal (fmtNat n) :=
  ⟨fmtDigits_ne_nil n n, fmtDigits_digits n n (Nat.le_refl n)⟩

theorem fmtNat_injective (a b : Nat) (h : fmtNat a = fmtNat b) : a = b := by
  have := congrArg decVal h
  rwa [decVal_fmtNat, decVal_fmtNat] at this

/-! ## `strconv.ParseUint` accepts exactly the decimal literals below `2 ^ 64` -/

theorem digitVal_of_isDigit (c : Char) (h : IsDigit c) : digitVal c = some (c.toNat - 48) := by
  unfold IsDigit at h
  simp [digitVal, h]

theorem isDigit_of_digitVal (c : Char) (d : Nat) (h : digitVal c = some d) (hd : d < 10) :
    IsDigit c := by
  unfold digitVal at h
  unfold IsDigit
  split at h
  · assumption
  · split at h
    · simp only [Option.some.injEq] at h; omega
    · split at h
      · simp only [Option.some.injEq] at h; omega
      · simp at h

theorem parseUintLoop_digits (s : GoString) : ∀ n, n < 2 ^ 64 → (∀ c ∈ s, IsDigit c) →
    parseUintLoop s n =
      if decFold n s < 2 ^ 64 then (decFold n s, none)
      else (maxUint64, some NumError.outOfRange) := by
  induction s with
  | nil =>
    intro n hn _
    rw [parseUintLoop, decFold_nil, if_pos hn]
  | cons c cs ih =>
    intro n hn hs
    have hc : IsDigit c := hs c (List.mem_cons_self _ _)
    have hcs : ∀ c ∈ cs, IsDigit c := fun x hx => hs x (List.mem_cons_of_mem _ hx)
    have hle := le_decFold cs (n * 10 + (c.toNat - 48))
    unfold IsDigit at hc
    rw [parseUintLoop, digitVal_of_isDigit c hc, decFold_cons]
    simp only [maxUint64] at *
    norm_num at *
    have hd : ¬ (10 ≤ c.toNat - 48) := by omega
    rw [if_neg hd]
    by_cases hcut : 1844674407370955162 ≤ n
    · rw [if_pos hcut, if_neg (by omega)]
    · rw [if_neg hcut]
      have h10 : n * 10 % 18446744073709551616 = n * 10 := Nat.mod_eq_of_lt (by omega)
      rw [h10]
      by_cases hov : n * 10 + (c.toNat - 48) < 18446744073709551616
      · rw [Nat.mod_eq_of_lt hov, if_neg (by omega)]
        exact ih _ hov hcs
      · have hmod : (n * 10 + (c.toNat - 48)) % 18446744073709551616
            = n * 10 + (c.toNat - 48) - 18446744073709551616 := by omega
        rw [hmod, if_pos (by omega), if_neg (by omega)]

theorem parseUintLoop_ok_digits (s : GoString) : ∀ n, (parseUintLoop s n).2 = none →
    ∀ c ∈ s, IsDigit c := by
  induction s with
  | nil => intro n _ c hc; simp at hc
  | cons a cs ih =>
    intro n h c hc
    rw [parseUintLoop] at h
    cases hda : digitVal a with
    | none => simp [hda] at h
    | some d =>
      simp only [hda] at h
      by_cases hd : 10 ≤ d
      · simp [hd] at h
      · rw [if_neg hd] at h
        split at h
        · simp at h
        · split at h
          · simp at h
          · rcases List.mem_cons.1 hc with rfl | hmem
            · exact isDigit_of_digitVal _ d hda (by omega)
            · exact ih _ h c hmem

/-- `ParseUint` succeeds with `v` exactly on the decimal literals of value `v < 2 ^ 64`. -/
theorem ParseUint_eq_ok_iff (s : GoString) (v : Nat) :
    ParseUint s = (v, none) ↔ IsUint64Literal s ∧ decVal s = v := by
  unfold ParseUint IsUint64Literal IsDecimal
  by_cases hs : s = []
  · simp [hs]
  · rw [if_neg hs]
    constructor
    · intro h
      have hd := parseUintLoop_ok_digits s 0 (by rw [h])
      rw [parseUintLoop_digits s 0 (by norm_num) hd] at h
      unfold decVal
      split at h
      · simp only [Prod.mk.injEq, and_true] at h
        exact ⟨⟨⟨hs, hd⟩, by assumption⟩, h⟩
      · simp at h
    · rintro ⟨⟨⟨_, hd⟩, hlt⟩, hv⟩
      unfold decVal at hlt hv
      rw [parseUintLoop_digits s 0 (by norm_num) hd, if_pos hlt, hv]

/-- `ParseUint` returns an error exactly when the input is no decimal literal below
`2 ^ 64`. -/
theorem ParseUint_err_iff (s : GoString) :
    (ParseUint s).2 ≠ none ↔ ¬ IsUint64Literal s := by
  constructor
  · intro h hl
    have := (ParseUint_eq_ok_iff s (decVal s)).2 ⟨hl, rfl⟩
    rw [this] at h
    exact h rfl
  · intro h hnone
    apply h
    have : ParseUint s = ((ParseUint s).1, none) := by rw [← hnone]
    exact ((ParseUint_eq_ok_iff s _).1 this).1

theorem ParseUint_of_literal (s : GoString) (h : IsUint64Literal s) :
    ParseUint s = (decVal s, none) :=
  (ParseUint_eq_ok_iff s (decVal s)).2 ⟨h, rfl⟩

theorem ParseUint_fmtNat (n : Nat) (h : n < 2 ^ 64) : ParseUint (fmtNat n) = (n, none) := by
  have := ParseUint_of_literal (fmtNat n) ⟨isDecimal_fmtNat n, by rw [decVal_fmtNat]; exact h⟩
  rwa [decVal_fmtNat] at this

/-! ## `strings.Split` on one separator byte -/

theorem Split_ne_nil (sep : Char) (s : GoString) : Split sep s ≠ [] := by
  induction s with
  | nil => simp [Split]
  | cons c cs ih =>
    unfold Split
    split
    · simp
    · split <;> simp

theorem Split_of_not_mem (sep : Char) (a : GoString) (h : sep ∉ a) : Split sep a = [a] := by
  induction a with
  | nil => rfl
  | cons c cs ih =>
    have hc : c ≠ sep := fun e => h (e ▸ List.mem_cons_self _ _)
    have hcs : sep ∉ cs := fun e => h (List.mem_cons_of_mem _ e)
    rw [Split, if_neg hc, ih hcs]

theorem Split_append_sep (sep : Char) (a r : GoString) (h : sep ∉ a) :
    Split sep (a ++ sep :: r) = a :: Split sep r := by
  induction a with
  | nil => simp [Split]
  | cons c cs ih =>
    have hc : c ≠ sep := fun e => h (e ▸ List.mem_cons_self _ _)
    have hcs : sep ∉ cs := fun e => h (List.mem_cons_of_mem _ e)
    rw [List.cons_append, Split, if_neg hc, ih hcs]

theorem Split_cons_inv (sep : Char) (s : GoString) : ∀ (p : GoString) (ps : List GoString),
    Split sep s = p :: ps →
    sep ∉ p ∧ ((ps = [] ∧ s = p) ∨ ∃ r, s = p ++ sep :: r ∧ Split sep r = ps) := by
  induction s with
  | nil =>
    intro p ps h
    simp only [Split, List.cons.injEq] at h
    obtain ⟨rfl, rfl⟩ := h
    simp
  | cons c cs ih =>
    intro p ps h
    rw [Split] at h
    by_cases hc : c = sep
    · rw [if_pos hc] at h
      simp only [List.cons.injEq] at h
      obtain ⟨rfl, rfl⟩ := h
      subst hc
      exact ⟨by simp, Or.inr ⟨cs, by simp, rfl⟩⟩
    · rw [if_neg hc] at h
      cases hq : Split sep cs with
      | nil => exact absurd hq (Split_ne_nil sep cs)
      | cons q qs =>
        rw [hq] at h
        simp only [List.cons.injEq] at h
        obtain ⟨rfl, rfl⟩ := h
        obtain ⟨hq1, hq2⟩ := ih q qs hq
        refine ⟨?_, ?_⟩
        · intro hm
          rcases List.mem_cons.1 hm with e | e
          · exact hc e.symm
          · exact hq1 e
        · rcases hq2 with ⟨rfl, rfl⟩ | ⟨r, rfl, hr⟩
          · exact Or.inl ⟨rfl, rfl⟩
          · exact Or.inr ⟨r, by simp, hr⟩

/-- `Split` returns exactly three pieces on the strings that hold the separator
twice. -/
theorem Split_eq_three_iff (sep : Char) (s a b c : GoString) :
    Split sep s = [a, b, c] ↔
      s = a ++ sep :: (b ++ sep :: c) ∧ sep ∉ a ∧ sep ∉ b ∧ sep ∉ c := by
  constructor
  · intro h
    obtain ⟨ha, h1⟩ := Split_cons_inv sep s a [b, c] h
    rcases h1 with ⟨h1, _⟩ | ⟨r1, rfl, h1⟩
    · simp at h1
    obtain ⟨hb, h2⟩ := Split_cons_inv sep r1 b [c] h1
    rcases h2 with ⟨h2, _⟩ | ⟨r2, rfl, h2⟩
    · simp at h2
    obtain ⟨hc, h3⟩ := Split_cons_inv sep r2 c [] h2
    rcases h3 with ⟨_, rfl⟩ | ⟨r3, _, h3⟩
    · exact ⟨rfl, ha, hb, hc⟩
    · exact absurd h3 (Split_ne_nil sep r3)
  · rintro ⟨rfl, ha, hb, hc⟩
    rw [Split_append_sep sep a _ ha, Split_append_sep sep b _ hb, Split_of_not_mem sep c hc]

theorem sep_not_mem_of_digits (s : GoString) (h : ∀ c ∈ s, IsDigit c) : 'x' ∉ s := by
  intro hx
  have := h 'x' hx
  revert this
  decide

/-! ## `strings.ToLower` on the bytes of a channel id -/

theorem lower_digit (special : Char → Char) (c : Char) (h : IsDigit c) :
    (if c.toNat < 128 then asciiLower c else special c) = c := by
  unfold IsDigit at h
  have h1 : c.toNat < 128 := by omega
  have h2 : ¬ (65 ≤ c.toNat ∧ c.toNat ≤ 90) := by omega
  rw [if_pos h1, asciiLower, if_neg h2]

theorem ToLower_digits (special : Char → Char) (s : GoString) (h : ∀ c ∈ s, IsDigit c) :
    ToLower special s = s := by
  unfold ToLower
  induction s with
  | nil => rfl
  | cons c cs ih =>
    rw [List.map_cons, lower_digit special c (h c (List.mem_cons_self _ _)),
      ih (fun x hx => h x (List.mem_cons_of_mem _ hx))]

theorem ToLower_append (special : Char → Char) (a b : GoString) :
    ToLower special (a ++ b) = ToLower special a ++ ToLower special b := by
  simp [ToLower]

theorem ToLower_cons_x (special : Char → Char) (s : GoString) :
    ToLower special ('x' :: s) = 'x' :: ToLower special s := by
  simp [ToLower, asciiLower]

theorem ToLower_cons_X (special : Char → Char) (s : GoString) :
    ToLower special ('X' :: s) = 'x' :: ToLower special s := by
  simp [ToLower, asciiLower]

/-! ## The short-channel-id layout -/

theorem pack_eq (B T O : Nat) (hB : B < 2 ^ 24) (hT : T < 2 ^ 24) (hO : O < 2 ^ 16) :
    ((B <<< 40) % 2 ^ 64) ||| ((T <<< 16) % 2 ^ 64) ||| O = B * 2 ^ 40 + T * 2 ^ 16 + O := by
  rw [Nat.shiftLeft_eq, Nat.shiftLeft_eq, Nat.mod_eq_of_lt (by omega), Nat.mod_eq_of_lt (by omega)]
  have h1 : B * 2 ^ 40 ||| T * 2 ^ 16 = 2 ^ 16 * (B * 2 ^ 24 + T) := by
    have := Nat.mul_add_lt_is_or (show T * 2 ^ 16 < 2 ^ 40 by omega) B
    rw [Nat.mul_comm B, ← this]
    ring
  rw [h1, ← Nat.mul_add_lt_is_or hO]
  ring

theorem pack_masked (b t o : Nat) :
    (((b &&& 0xffffff) <<< 40) % 2 ^ 64) ||| (((t &&& 0xffffff) <<< 16) % 2 ^ 64)
      ||| (o &&& 0xffff) = b % 2 ^ 24 * 2 ^ 40 + t % 2 ^ 24 * 2 ^ 16 + o % 2 ^ 16 := by
  have e24 : (0xffffff : Nat) = 2 ^ 24 - 1 := by norm_num
  have e16 : (0xffff : Nat) = 2 ^ 16 - 1 := by norm_num
  rw [e24, e16, Nat.and_pow_two_sub_one_eq_mod, Nat.and_pow_two_sub_one_eq_mod,
    Nat.and_pow_two_sub_one_eq_mod]
  exact pack_eq _ _ _ (Nat.mod_lt _ (by norm_num)) (Nat.mod_lt _ (by norm_num))
    (Nat.mod_lt _ (by norm_num))

theorem field_block (c : Nat) :
    (c &&& 0xffffff0000000000) >>> 40 = c / 2 ^ 40 % 2 ^ 24 := by
  have e : (0xffffff0000000000 : Nat) = (2 ^ 24 - 1) <<< 40 := by decide
  apply Nat.eq_of_testBit_eq
  intro i
  rw [e, Nat.testBit_shiftRight, Nat.testBit_and, Nat.testBit_shiftLeft,
    Nat.testBit_two_pow_sub_one, Nat.testBit_mod_two_pow, ← Nat.shiftRight_eq_div_pow,
    Nat.testBit_shiftRight]
  simp only [Nat.le_add_right, decide_True, Nat.add_sub_cancel_left, Bool.true_and]
  rw [Bool.and_comm]

theorem field_tx (c : Nat) :
    (c &&& 0x000000ffffff0000) >>> 16 = c / 2 ^ 16 % 2 ^ 24 := by
  have e : (0x000000ffffff0000 : Nat) = (2 ^ 24 - 1) <<< 16 := by decide
  apply Nat.eq_of_testBit_eq
  intro i
  rw [e, Nat.testBit_shiftRight, Nat.testBit_and, Nat.testBit_shiftLeft,
    Nat.testBit_two_pow_sub_one, Nat.testBit_mod_two_pow, ← Nat.shiftRight_eq_div_pow,
    Nat.testBit_shiftRight]
  simp only [Nat.le_add_right, decide_True, Nat.add_sub_cancel_left, Bool.true_and]
  rw [Bool.and_comm]

theorem field_output (c : Nat) : c &&& 0x000000000000ffff = c % 2 ^ 16 := by
  have e : (0x000000000000ffff : Nat) = 2 ^ 16 - 1 := by norm_num
  rw [e, Nat.and_pow_two_sub_one_eq_mod]

/-! ## `ToLndChanId`, `FromLndChanId`, `ConvertAmount` -/

theorem ToLndChanId_of_parts (special : Char → Char) (id a b c : GoString)
    (hp : ChanIdParts (ToLower special id) a b c)
    (ha : IsUint64Literal a) (hb : IsUint64Literal b) (hc : IsUint64Literal c) :
    ToLndChanId special id =
      (decVal a % 2 ^ 24 * 2 ^ 40 + decVal b % 2 ^ 24 * 2 ^ 16 + decVal c % 2 ^ 16, none) := by
  have hs : Split 'x' (ToLower special id) = [a, b, c] :=
    (Split_eq_three_iff 'x' _ a b c).2 hp
  unfold ToLndChanId
  rw [hs]
  simp only [ParseUint_of_literal a ha, ParseUint_of_literal b hb, ParseUint_of_literal c hc]
  rw [pack_masked]

theorem ToLndChanId_ok_wellFormed (special : Char → Char) (id : GoString)
    (h : (ToLndChanId special id).2 = none) : WellFormedChanId (ToLower special id) := by
  unfold ToLndChanId at h
  split at h
  · rename_i s0 s1 s2 hs
    have hp := (Split_eq_three_iff 'x' _ s0 s1 s2).1 hs
    by_cases h0 : IsUint64Literal s0
    · by_cases h1 : IsUint64Literal s1
      · by_cases h2 : IsUint64Literal s2
        · exact ⟨s0, s1, s2, hp, h0, h1, h2⟩
        · exfalso
          have e2 := (ParseUint_err_iff s2).2 h2
          rw [ParseUint_of_literal s0 h0, ParseUint_of_literal s1 h1] at h
          simp only at h
          split at h
          · simp at h
          · rename_i v heq
            exact e2 (by rw [heq])
      · exfalso
        have e1 := (ParseUint_err_iff s1).2 h1
        rw [ParseUint_of_literal s0 h0] at h
        simp only at h
        split at h
        · simp at h
        · rename_i v heq
          exact e1 (by rw [heq])
    · exfalso
      have e0 := (ParseUint_err_iff s0).2 h0
      split at h
      · simp at h
      · rename_i v heq
        exact e0 (by rw [heq])
  · simp at h

theorem ToLndChanId_err_value (special : Char → Char) (id : GoString)
    (h : (ToLndChanId special id).2 ≠ none) : (ToLndChanId special id).1 = 0 := by
  unfold ToLndChanId at h ⊢
  split
  · split
    · rfl
    · split
      · rfl
      · split
        · rfl
        · rename_i hs _ _ h0 _ _ h1 _ _ h2
          rw [hs] at h
          simp only [h0, h1, h2] at h
          exact absurd rfl h
  · rfl

theorem Sprintf_d_toInt64 (u : Nat) (h : u < 2 ^ 63) : Sprintf_d (toInt64 u) = fmtNat u := by
  unfold toInt64
  have hm : u % 2 ^ 64 = u := Nat.mod_eq_of_lt (by omega)
  rw [hm, if_pos h]
  rfl

theorem FromLndChanId_eq (c : Nat) :
    FromLndChanId c =
      fmtNat (c / 2 ^ 40 % 2 ^ 24) ++ 'x' ::
        (fmtNat (c / 2 ^ 16 % 2 ^ 24) ++ 'x' :: fmtNat (c % 2 ^ 16)) := by
  unfold FromLndChanId
  simp only [field_block, field_tx, field_output]
  rw [Sprintf_d_toInt64 _ (by omega), Sprintf_d_toInt64 _ (by omega),
    Sprintf_d_toInt64 _ (by omega)]
  simp

theorem parts_of_fmt (b t o : Nat) :
    ChanIdParts (fmtNat b ++ 'x' :: (fmtNat t ++ 'x' :: fmtNat o))
      (fmtNat b) (fmtNat t) (fmtNat o) :=
  ⟨rfl, sep_not_mem_of_digits _ (isDecimal_fmtNat b).2,
    sep_not_mem_of_digits _ (isDecimal_fmtNat t).2,
    sep_not_mem_of_digits _ (isDecimal_fmtNat o).2⟩

theorem ToLower_fmt_lower (special : Char → Char) (b t o : Nat) :
    ToLower special (fmtNat b ++ 'x' :: (fmtNat t ++ 'x' :: fmtNat o))
      = fmtNat b ++ 'x' :: (fmtNat t ++ 'x' :: fmtNat o) := by
  rw [ToLower_append, ToLower_cons_x, ToLower_append, ToLower_cons_x,
    ToLower_digits _ _ (isDecimal_fmtNat b).2, ToLower_digits _ _ (isDecimal_fmtNat t).2,
    ToLower_digits _ _ (isDecimal_fmtNat o).2]

theorem ToLower_fmt_upper (special : Char → Char) (b t o : Nat) :
    ToLower special (fmtNat b ++ 'X' :: (fmtNat t ++ 'X' :: fmtNat o))
      = fmtNat b ++ 'x' :: (fmtNat t ++ 'x' :: fmtNat o) := by
  rw [ToLower_append, ToLower_cons_X, ToLower_append, ToLower_cons_X,
    ToLower_digits _ _ (isDecimal_fmtNat b).2, ToLower_digits _ _ (isDecimal_fmtNat t).2,
    ToLower_digits _ _ (isDecimal_fmtNat o).2]

theorem literal_fmtNat (n : Nat) (h : n < 2 ^ 64) : IsUint64Literal (fmtNat n) :=
  ⟨isDecimal_fmtNat n, by rw [decVal_fmtNat]; exact h⟩

theorem ToLndChanId_fmt (special : Char → Char) (sep : Char) (b t o : Nat)
    (hsep : sep = 'x' ∨ sep = 'X')
    (hb : b < 2 ^ 64) (ht : t < 2 ^ 64) (ho : o < 2 ^ 64) :
    ToLndChanId special (fmtNat b ++ sep :: (fmtNat t ++ sep :: fmtNat o))
      = (b % 2 ^ 24 * 2 ^ 40 + t % 2 ^ 24 * 2 ^ 16 + o % 2 ^ 16, none) := by
  have key := ToLndChanId_of_parts special
    (fmtNat b ++ sep :: (fmtNat t ++ sep :: fmtNat o)) (fmtNat b) (fmtNat t) (fmtNat o)
    (by
      rcases hsep with rfl | rfl
      · rw [ToLower_fmt_lower]; exact parts_of_fmt b t o
      · rw [ToLower_fmt_upper]; exact parts_of_fmt b t o)
    (literal_fmtNat b hb) (literal_fmtNat t ht) (literal_fmtNat o ho)
  rw [key, decVal_fmtNat, decVal_fmtNat, decVal_fmtNat]

/-! ## Go maps -/

theorem lookupEntry_filter_ne {V : Type} (k k' : GoString) (h : k' ≠ k)
    (es : List (GoString × V)) :
    lookupEntry k' (es.filter (fun e => !decide (e.1 = k))) = lookupEntry k' es := by
  induction es with
  | nil => rfl
  | cons e es ih =>
    by_cases hk : e.1 = k
    · have hk' : e.1 ≠ k' := fun x => h (x ▸ hk)
      simp [List.filter_cons, hk, lookupEntry, ih, Ne.symm h]
    · by_cases hk' : e.1 = k'
      · simp [List.filter_cons, lookupEntry, hk', h]
      · simp [List.filter_cons, hk, lookupEntry, hk', ih]

theorem lookupEntry_filter_self {V : Type} (k : GoString) (es : List (GoString × V)) :
    lookupEntry k (es.filter (fun e => !decide (e.1 = k))) = none := by
  induction es with
  | nil => rfl
  | cons e es ih =>
    by_cases hk : e.1 = k
    · simp [List.filter_cons, hk, ih]
    · simp [List.filter_cons, hk, lookupEntry, ih]

theorem lookupEntry_eq_none {V : Type} (k : GoString) (es : List (GoString × V))
    (h : k ∉ es.map Prod.fst) : lookupEntry k es = none := by
  induction es with
  | nil => rfl
  | cons e es ih =>
    simp only [List.map_cons, List.mem_cons, not_or] at h
    rw [lookupEntry, if_neg (fun x => h.1 x.symm), ih h.2]

theorem lookupEntry_of_mem {V : Type} (es : List (GoString × V))
    (hn : (es.map Prod.fst).Nodup) (e : GoString × V) (he : e ∈ es) :
    lookupEntry e.1 es = some e.2 := by
  induction es with
  | nil => simp at he
  | cons a es ih =>
    rw [List.map_cons, List.nodup_cons] at hn
    rcases List.mem_cons.1 he with rfl | hmem
    · simp [lookupEntry]
    · have hne : a.1 ≠ e.1 := by
        intro x
        exact hn.1 (x ▸ List.mem_map_of_mem Prod.fst hmem)
      rw [lookupEntry, if_neg hne, ih hn.2 hmem]

theorem mem_of_lookupEntry {V : Type} (k : GoString) (v : V) (es : List (GoString × V))
    (h : lookupEntry k es = some v) : (k, v) ∈ es := by
  induction es with
  | nil => simp [lookupEntry] at h
  | cons a es ih =>
    rw [lookupEntry] at h
    by_cases hk : a.1 = k
    · rw [if_pos hk] at h
      simp only [Option.some.injEq] at h
      subst hk; subst h
      exact List.mem_cons_self _ _
    · rw [if_neg hk] at h
      exact List.mem_cons_of_mem _ (ih h)

theorem GoMap.get?_empty {V : Type} (k : GoString) : (GoMap.empty : GoMap V).get? k = none :=
  rfl

theorem GoMap.get?_set_self {V : Type} (m : GoMap V) (k : GoString) (v : V) :
    (m.set k v).get? k = some v := by
  simp [GoMap.get?, GoMap.set, lookupEntry]

theorem GoMap.get?_set_ne {V : Type} (m : GoMap V) (k k' : GoString) (v : V) (h : k' ≠ k) :
    (m.set k v).get? k' = m.get? k' := by
  simp only [GoMap.get?, GoMap.set, lookupEntry]
  rw [if_neg (fun x => h x.symm)]
  exact lookupEntry_filter_ne k k' h m.entries

theorem GoMap.get?_set {V : Type} (m : GoMap V) (k k' : GoString) (v : V) :
    (m.set k v).get? k' = if k' = k then some v else m.get? k' := by
  by_cases h : k' = k
  · rw [if_pos h, h, GoMap.get?_set_self]
  · rw [if_neg h, GoMap.get?_set_ne m k k' v h]

theorem GoMap.len_set_of_absent {V : Type} (m : GoMap V) (k : GoString) (v : V)
    (h : k ∉ m.entries.map Prod.fst) : (m.set k v).len = m.len + 1 := by
  have hf : m.entries.filter (fun e => !decide (e.1 = k)) = m.entries := by
    rw [List.filter_eq_self]
    intro e he
    have : e.1 ≠ k := fun x => h (x ▸ List.mem_map_of_mem Prod.fst he)
    simpa using this
  simp [GoMap.len, GoMap.set, hf]

theorem deleteAll_fold_entries {V : Type} (es : List (GoString × V)) : ∀ m : GoMap V,
    (∀ e ∈ m.entries, e.1 ∈ es.map Prod.fst) →
    (es.foldl (fun acc e => GoMap.delete acc e.1) m).entries = [] := by
  induction es with
  | nil =>
    intro m h
    cases hm : m.entries with
    | nil => rw [List.foldl_nil]; exact hm
    | cons a l =>
      have := h a (by rw [hm]; exact List.mem_cons_self _ _)
      simp at this
  | cons a es ih =>
    intro m h
    rw [List.foldl_cons]
    apply ih
    intro e he
    simp only [GoMap.delete, List.mem_filter, Bool.not_eq_eq_eq_not,
      Bool.not_true, decide_eq_false_iff_not] at he
    have := h e he.1
    simp only [List.map_cons, List.mem_cons] at this
    rcases this with x | x
    · exact absurd x he.2
    · exact x

/-- After the loop that deletes every key the map has no entry. -/
theorem GoMap.deleteAll_entries {V : Type} (m : GoMap V) : m.deleteAll.entries = [] :=
  deleteAll_fold_entries m.entries m (fun _ he => List.mem_map_of_mem Prod.fst he)

/-! ## The deferred writes of the channel cache -/

theorem Get_eq (c : RedisChannelCache) (name : GoString) :
    c.Get name =
      match c.client.get? (c.storeKey name) with
      | none => ([], false)
      | some v => (v, true) := by
  unfold RedisChannelCache.Get
  cases h : c.client.get? (c.storeKey name) <;> simp

theorem storeKey_injective (c : RedisChannelCache) (a b : GoString)
    (h : c.storeKey a = c.storeKey b) : a = b := by
  unfold RedisChannelCache.storeKey at h
  have := List.append_cancel_left h
  simpa using this

theorem commitOne_env (c : RedisChannelCache) (e : GoString × OldNewVal) :
    (c.commitOne e).env = c.env ∧ (c.commitOne e).deferredCache = c.deferredCache := by
  unfold RedisChannelCache.commitOne
  simp only
  split <;> simp [RedisChannelCache.Set]

theorem commitOne_storeKey (c : RedisChannelCache) (e : GoString × OldNewVal)
    (name : GoString) : (c.commitOne e).storeKey name = c.storeKey name := by
  unfold RedisChannelCache.storeKey
  rw [(commitOne_env c e).1]

theorem commitOne_client (c : RedisChannelCache) (e : GoString × OldNewVal)
    (key : GoString) :
    (c.commitOne e).client.get? key =
      if key = c.storeKey e.1 ∧
          (c.client.get? key = none ∨ c.client.get? key = some e.2.OldValue)
      then some e.2.NewValue else c.client.get? key := by
  unfold RedisChannelCache.commitOne
  rw [Get_eq]
  by_cases hk : key = c.storeKey e.1
  · subst hk
    cases hg : c.client.get? (c.storeKey e.1) with
    | none => simp [RedisChannelCache.Set, GoMap.get?_set_self]
    | some v =>
      by_cases hv : v = e.2.OldValue
      · simp [RedisChannelCache.Set, GoMap.get?_set_self, hv]
      · simp [hv, hg]
  · simp only [hk, false_and, if_false]
    split
    · simp only [RedisChannelCache.Set]
      exact GoMap.get?_set_ne _ _ _ _ hk
    · rfl

theorem commitFold_env (es : List (GoString × OldNewVal)) : ∀ c : RedisChannelCache,
    (es.foldl RedisChannelCache.commitOne c).env = c.env ∧
      (es.foldl RedisChannelCache.commitOne c).deferredCache = c.deferredCache := by
  induction es with
  | nil => intro c; exact ⟨rfl, rfl⟩
  | cons e es ih =>
    intro c
    rw [List.foldl_cons]
    exact ⟨(ih _).1.trans (commitOne_env c e).1, (ih _).2.trans (commitOne_env c e).2⟩

theorem commitFold_frame (es : List (GoString × OldNewVal)) : ∀ (c : RedisChannelCache)
    (key : GoString), (∀ e ∈ es, key ≠ c.storeKey e.1) →
    (es.foldl RedisChannelCache.commitOne c).client.get? key = c.client.get? key := by
  induction es with
  | nil => intro c key _; rfl
  | cons e es ih =>
    intro c key h
    rw [List.foldl_cons, ih (c.commitOne e) key, commitOne_client,
      if_neg (fun x => h e (List.mem_cons_self _ _) x.1)]
    intro a ha
    rw [commitOne_storeKey]
    exact h a (List.mem_cons_of_mem _ ha)

theorem commitFold_entry (es : List (GoString × OldNewVal)) : ∀ (c : RedisChannelCache),
    (es.map Prod.fst).Nodup → ∀ e ∈ es,
    (es.foldl RedisChannelCache.commitOne c).client.get? (c.storeKey e.1) =
      if c.client.get? (c.storeKey e.1) = none ∨
          c.client.get? (c.storeKey e.1) = some e.2.OldValue
      then some e.2.NewValue else c.client.get? (c.storeKey e.1) := by
  induction es with
  | nil => intro c _ e he; simp at he
  | cons a es ih =>
    intro c hn e he
    rw [List.map_cons, List.nodup_cons] at hn
    rw [List.foldl_cons]
    rcases List.mem_cons.1 he with rfl | hmem
    · rw [commitFold_frame es (c.commitOne e) (c.storeKey e.1), commitOne_client]
      · simp
      · intro b hb heq
        rw [commitOne_storeKey] at heq
        have := storeKey_injective c _ _ heq
        exact hn.1 (this ▸ List.mem_map_of_mem Prod.fst hb)
    · have hne : c.storeKey e.1 ≠ c.storeKey a.1 := by
        intro heq
        have := storeKey_injective c _ _ heq
        exact hn.1 (this ▸ List.mem_map_of_mem Prod.fst hmem)
      have key := ih (c.commitOne a) hn.2 e hmem
      have hsame : (c.commitOne a).client.get? (c.storeKey e.1)
          = c.client.get? (c.storeKey e.1) := by
        rw [commitOne_client, if_neg (fun x => hne x.1)]
      rw [commitOne_storeKey, hsame] at key
      exact key

/-! ## `big.Int.SetString` in base 16 -/

theorem digitVal_of_isHexDigit (c : Char) (h : IsHexDigit c) :
    digitVal c = some (hexDigitVal c) ∧ hexDigitVal c < 16 := by
  unfold IsHexDigit at h
  unfold digitVal hexDigitVal
  rcases h with h | h | h
  · rw [if_pos h, if_pos h.2]
    exact ⟨rfl, by omega⟩
  · rw [if_neg (by omega), if_pos (show 97 ≤ c.toNat ∧ c.toNat ≤ 122 by omega),
      if_neg (by omega), if_pos h.1]
    exact ⟨by congr 1; omega, by omega⟩
  · rw [if_neg (by omega), if_neg (by omega),
      if_pos (show 65 ≤ c.toNat ∧ c.toNat ≤ 90 by omega), if_neg (by omega),
      if_neg (by omega)]
    exact ⟨by congr 1; omega, by omega⟩

theorem isHexDigit_of_digitVal (c : Char) (d : Nat) (h : digitVal c = some d) (hd : d < 16) :
    IsHexDigit c := by
  unfold digitVal at h
  unfold IsHexDigit
  split at h
  · exact Or.inl (by assumption)
  · split at h
    · simp only [Option.some.injEq] at h
      exact Or.inr (Or.inl (by omega))
    · split at h
      · simp only [Option.some.injEq] at h
        exact Or.inr (Or.inr (by omega))
      · simp at h

theorem scanHex_digits (s : GoString) : ∀ v count, (∀ c ∈ s, IsHexDigit c) →
    scanHex s v count = (hexFold v s, count + s.length, []) := by
  induction s with
  | nil => intro v count _; rfl
  | cons c cs ih =>
    intro v count h
    obtain ⟨h1, h2⟩ := digitVal_of_isHexDigit c (h c (List.mem_cons_self _ _))
    rw [scanHex, h1]
    simp only
    rw [if_neg (by omega), ih _ _ (fun x hx => h x (List.mem_cons_of_mem _ hx))]
    simp only [hexFold, List.foldl_cons, List.length_cons, Prod.mk.injEq, and_true, true_and]
    omega

theorem scanHex_rest_nil (s : GoString) : ∀ v count, (scanHex s v count).2.2 = [] →
    ∀ c ∈ s, IsHexDigit c := by
  induction s with
  | nil => intro v count _ c hc; simp at hc
  | cons a cs ih =>
    intro v count h c hc
    rw [scanHex] at h
    cases hd : digitVal a with
    | none => simp [hd] at h
    | some d =>
      simp only [hd] at h
      by_cases h16 : 16 ≤ d
      · simp [h16] at h
      · rw [if_neg h16] at h
        rcases List.mem_cons.1 hc with rfl | hmem
        · exact isHexDigit_of_digitVal _ d hd (by omega)
        · exact ih _ _ h c hmem

theorem scanSign_minus (r : GoString) : scanSign ('-' :: r) = (true, r) := rfl

theorem scanSign_plus (r : GoString) : scanSign ('+' :: r) = (false, r) := rfl

theorem scanSign_other (s : GoString) (h1 : ∀ r, s ≠ '-' :: r) (h2 : ∀ r, s ≠ '+' :: r) :
    scanSign s = (false, s) := by
  unfold scanSign
  split
  · exact absurd rfl (h1 _)
  · exact absurd rfl (h2 _)
  · rfl

theorem scanSign_hex (body : GoString) (hne : body ≠ []) (h : ∀ c ∈ body, IsHexDigit c) :
    scanSign body = (false, body) := by
  cases body with
  | nil => exact absurd rfl hne
  | cons c cs =>
    have hc := h c (List.mem_cons_self _ _)
    apply scanSign_other
    · intro r e
      simp only [List.cons.injEq] at e
      rw [e.1] at hc
      revert hc
      decide
    · intro r e
      simp only [List.cons.injEq] at e
      rw [e.1] at hc
      revert hc
      decide

theorem SetString16_of_body (sg : Bool) (body : GoString) (s : GoString)
    (hs : scanSign s = (sg, body)) (hne : body ≠ []) (h : ∀ c ∈ body, IsHexDigit c) :
    SetString16 s = some (if sg = true then -((hexFold 0 body : Nat) : Int)
      else ((hexFold 0 body : Nat) : Int)) := by
  unfold SetString16
  simp only [hs, scanHex_digits body 0 0 h]
  have hl : body.length ≠ 0 := by
    intro e
    exact hne (List.length_eq_zero.1 e)
  simp only [Nat.zero_add, hl, if_false, ne_eq, not_true_eq_false]
  congr 1
  cases sg with
  | false => simp
  | true =>
    by_cases hz : hexFold 0 body = 0
    · simp [hz]
    · simp [hz]

/-- `SetString` in base 16 succeeds with `z` exactly on the base-16 literals of `z`. -/
theorem SetString16_iff (s : GoString) (z : Int) :
    SetString16 s = some z ↔ IsHexLiteral s z := by
  constructor
  · intro h
    have key : ∀ (sg : Bool) (body : GoString), scanSign s = (sg, body) →
        body ≠ [] ∧ (∀ c ∈ body, IsHexDigit c) ∧
          z = (if sg = true then -((hexFold 0 body : Nat) : Int)
            else ((hexFold 0 body : Nat) : Int)) := by
      intro sg body hs
      have h' := h
      unfold SetString16 at h'
      simp only [hs] at h'
      by_cases hc : (scanHex body 0 0).2.1 = 0
      · simp [hc] at h'
      · by_cases hr : (scanHex body 0 0).2.2 = []
        · have hd := scanHex_rest_nil body 0 0 hr
          have hne : body ≠ [] := by
            intro e
            subst e
            exact hc rfl
          have := SetString16_of_body sg body s hs hne hd
          rw [h] at this
          exact ⟨hne, hd, Option.some.inj this⟩
        · simp [hc, hr] at h'
    by_cases h1 : ∃ r, s = '-' :: r
    · obtain ⟨r, rfl⟩ := h1
      obtain ⟨hne, hd, hz⟩ := key true r (scanSign_minus r)
      exact ⟨r, hne, hd, Or.inr (Or.inr ⟨rfl, by simpa using hz⟩)⟩
    · by_cases h2 : ∃ r, s = '+' :: r
      · obtain ⟨r, rfl⟩ := h2
        obtain ⟨hne, hd, hz⟩ := key false r (scanSign_plus r)
        exact ⟨r, hne, hd, Or.inr (Or.inl ⟨rfl, by simpa using hz⟩)⟩
      · have hs := scanSign_other s (fun r e => h1 ⟨r, e⟩) (fun r e => h2 ⟨r, e⟩)
        obtain ⟨hne, hd, hz⟩ := key false s hs
        exact ⟨s, hne, hd, Or.inl ⟨rfl, by simpa using hz⟩⟩
  · rintro ⟨body, hne, hd, ⟨rfl, rfl⟩ | ⟨rfl, rfl⟩ | ⟨rfl, rfl⟩⟩
    · rw [SetString16_of_body false s s (scanSign_hex s hne hd) hne hd]
      simp
    · rw [SetString16_of_body false body _ (scanSign_plus body) hne hd]
      simp
    · rw [SetString16_of_body true body _ (scanSign_minus body) hne hd]
      simp

/-! ## The bit loop of `ConvertFeatures` -/

theorem popcount_zero : popcount 0 = 0 := by simp [popcount]

theorem popcount_step (q : Nat) (h : 0 < q) : popcount q = q % 2 + popcount (q / 2) := by
  unfold popcount
  rw [Nat.digits_def' (by norm_num) h, List.sum_cons]

theorem testBit_step (q bit i : Nat) :
    (bit ≤ i ∧ q.testBit (i - bit) = true) ↔
      ((i = bit ∧ q % 2 = 1) ∨ (bit + 1 ≤ i ∧ (q / 2).testBit (i - (bit + 1)) = true)) := by
  by_cases hi : i = bit
  · subst hi
    simp [Nat.testBit_zero]
  · constructor
    · rintro ⟨h1, h2⟩
      right
      refine ⟨by omega, ?_⟩
      have e : i - bit = (i - (bit + 1)) + 1 := by omega
      rw [e, Nat.testBit_succ] at h2
      exact h2
    · rintro (⟨h1, _⟩ | ⟨h1, h2⟩)
      · exact absurd h1 hi
      · refine ⟨by omega, ?_⟩
        have e : i - bit = (i - (bit + 1)) + 1 := by omega
        rw [e, Nat.testBit_succ]
        exact h2

theorem featuresLoop_done (fuel bit : Nat) (result : GoMap NodeFeatureApi) :
    featuresLoop fuel ((0 : Nat) : Int) bit result = result := by
  cases fuel with
  | zero => rfl
  | succ f => simp [featuresLoop]

theorem featuresLoop_even (f q bit : Nat) (result : GoMap NodeFeatureApi)
    (h0 : 0 < q) (he : q % 2 = 0) :
    featuresLoop (f + 1) (q : Int) bit result
      = featuresLoop f ((q / 2 : Nat) : Int) (bit + 1) result := by
  have hpos : (0 : Int) < (q : Int) := by omega
  have hm : ¬ ((0 : Int) < (q : Int) % 2) := by omega
  have hd : (q : Int) / 2 = ((q / 2 : Nat) : Int) := by omega
  rw [featuresLoop, if_pos hpos]
  simp only [hm, not_false_eq_true, if_true, hd]

theorem featuresLoop_odd (f q bit : Nat) (result : GoMap NodeFeatureApi)
    (ho : q % 2 = 1) :
    featuresLoop (f + 1) (q : Int) bit result
      = featuresLoop f ((q / 2 : Nat) : Int) (bit + 1)
          (result.set (fmtNat bit)
            { Name := [], IsKnown := true, IsRequired := decide (bit % 2 = 0) }) := by
  have hpos : (0 : Int) < (q : Int) := by omega
  have hm : (0 : Int) < (q : Int) % 2 := by omega
  have hd : (q : Int) / 2 = ((q / 2 : Nat) : Int) := by omega
  rw [featuresLoop, if_pos hpos]
  simp only [hm, not_true_eq_false, if_false, hd]
  rfl

/-- What the bit loop leaves in the map: started at bit index `bit` with the value `q`
and a map whose keys are decimal indices below `bit`, it adds an entry for each set bit
of `q`, under the decimal of `bit` plus the position of the bit, and nothing else. -/
theorem featuresLoop_spec (fuel : Nat) : ∀ (q bit : Nat) (result : GoMap NodeFeatureApi),
    q ≤ fuel → (∀ k ∈ result.entries.map Prod.fst, ∃ j, j < bit ∧ k = fmtNat j) →
    (∀ i, (featuresLoop fuel (q : Int) bit result).get? (fmtNat i) =
      if bit ≤ i ∧ q.testBit (i - bit) = true
      then some { Name := [], IsKnown := true, IsRequired := decide (i % 2 = 0) }
      else result.get? (fmtNat i)) ∧
    (∀ k ∈ (featuresLoop fuel (q : Int) bit result).entries.map Prod.fst,
      ∃ j, k = fmtNat j) ∧
    (featuresLoop fuel (q : Int) bit result).len = result.len + popcount q := by
  have base : ∀ (fuel bit : Nat) (result : GoMap NodeFeatureApi),
      (∀ k ∈ result.entries.map Prod.fst, ∃ j, j < bit ∧ k = fmtNat j) →
      (∀ i, (featuresLoop fuel ((0 : Nat) : Int) bit result).get? (fmtNat i) =
        if bit ≤ i ∧ (0 : Nat).testBit (i - bit) = true
        then some { Name := [], IsKnown := true, IsRequired := decide (i % 2 = 0) }
        else result.get? (fmtNat i)) ∧
      (∀ k ∈ (featuresLoop fuel ((0 : Nat) : Int) bit result).entries.map Prod.fst,
        ∃ j, k = fmtNat j) ∧
      (featuresLoop fuel ((0 : Nat) : Int) bit result).len = result.len + popcount 0 := by
    intro fuel bit result hk
    rw [featuresLoop_done]
    refine ⟨?_, ?_, ?_⟩
    · intro i
      simp
    · intro k hkm
      obtain ⟨j, _, hj⟩ := hk k hkm
      exact ⟨j, hj⟩
    · rw [popcount_zero, Nat.add_zero]
  induction fuel with
  | zero =>
    intro q bit result hq hk
    have : q = 0 := by omega
    subst this
    exact base 0 bit result hk
  | succ f ih =>
    intro q bit result hq hk
    by_cases h0 : 0 < q
    swap
    · have : q = 0 := by omega
      subst this
      exact base (f + 1) bit result hk
    have hq2 : q / 2 ≤ f := by omega
    rcases Nat.mod_two_eq_zero_or_one q with he | ho
    · rw [featuresLoop_even f q bit result h0 he]
      obtain ⟨g1, g2, g3⟩ := ih (q / 2) (bit + 1) result hq2 (by
        intro k hkm
        obtain ⟨j, hj, hjk⟩ := hk k hkm
        exact ⟨j, by omega, hjk⟩)
      refine ⟨?_, g2, ?_⟩
      · intro i
        rw [g1 i]
        have := testBit_step q bit i
        by_cases hc : bit ≤ i ∧ q.testBit (i - bit) = true
        · have hc' : bit + 1 ≤ i ∧ (q / 2).testBit (i - (bit + 1)) = true := by
            rcases this.1 hc with ⟨_, h1⟩ | h2
            · omega
            · exact h2
          rw [if_pos hc, if_pos hc']
        · have hc' : ¬ (bit + 1 ≤ i ∧ (q / 2).testBit (i - (bit + 1)) = true) :=
            fun x => hc (this.2 (Or.inr x))
          rw [if_neg hc, if_neg hc']
      · rw [g3, popcount_step q h0, he, Nat.zero_add]
    · rw [featuresLoop_odd f q bit result ho]
      have hfresh : fmtNat bit ∉ result.entries.map Prod.fst := by
        intro hmem
        obtain ⟨j, hj, hjk⟩ := hk _ hmem
        have := fmtNat_injective _ _ hjk
        omega
      obtain ⟨g1, g2, g3⟩ := ih (q / 2) (bit + 1)
        (result.set (fmtNat bit)
          { Name := [], IsKnown := true, IsRequired := decide (bit % 2 = 0) }) hq2 (by
        intro k hkm
        simp only [GoMap.set, List.map_cons, List.mem_cons] at hkm
        rcases hkm with rfl | hkm
        · exact ⟨bit, by omega, rfl⟩
        · obtain ⟨e, he, rfl⟩ := List.mem_map.1 hkm
          obtain ⟨j, hj, hjk⟩ := hk e.1 (List.mem_map_of_mem Prod.fst (List.mem_filter.1 he).1)
          exact ⟨j, by omega, hjk⟩)
      refine ⟨?_, g2, ?_⟩
      · intro i
        rw [g1 i, GoMap.get?_set]
        have := testBit_step q bit i
        by_cases hi : i = bit
        · subst hi
          have hc : i ≤ i ∧ q.testBit (i - i) = true := this.2 (Or.inl ⟨rfl, ho⟩)
          rw [if_pos hc, if_neg (by omega), if_pos rfl]
        · have hne : fmtNat i ≠ fmtNat bit := fun x => hi (fmtNat_injective _ _ x)
          rw [if_neg hne]
          by_cases hc : bit ≤ i ∧ q.testBit (i - bit) = true
          · have hc' : bit + 1 ≤ i ∧ (q / 2).testBit (i - (bit + 1)) = true := by
              rcases this.1 hc with ⟨h1, _⟩ | h2
              · exact absurd h1 hi
              · exact h2
            rw [if_pos hc, if_pos hc']
          · have hc' : ¬ (bit + 1 ≤ i ∧ (q / 2).testBit (i - (bit + 1)) = true) :=
              fun x => hc (this.2 (Or.inr x))
            rw [if_neg hc, if_neg hc']
      · rw [g3, GoMap.len_set_of_absent _ _ _ hfresh, popcount_step q h0, ho]
        omega

theorem ConvertFeatures_of_literal (s : GoString) (z : Int) (h : IsHexLiteral s z) :
    ConvertFeatures s = some (featuresLoop z.toNat z 0 GoMap.empty) := by
  unfold ConvertFeatures
  rw [(SetString16_iff s z).2 h]

theorem featuresLoop_nonpos (fuel : Nat) (z : Int) (hz : z ≤ 0) (bit : Nat)
    (result : GoMap NodeFeatureApi) : featuresLoop fuel z bit result = result := by
  cases fuel with
  | zero => rfl
  | succ f =>
    rw [featuresLoop, if_neg (by omega)]

/-! ## Channel ids and amounts: the properties -/

/-- C2: channel-id round trip.  For every 64-bit unsigned channel id `c`,
`ToLndChanId (FromLndChanId c)` returns no error and returns exactly `c`. -/
theorem chanId_roundtrip (special : Char → Char) (c : Nat) (hc : c < 2 ^ 64) :
    ToLndChanId special (FromLndChanId c) = (c, none) := by
  rw [FromLndChanId_eq, ToLndChanId_fmt special 'x' _ _ _ (Or.inl rfl) (by omega) (by omega)
    (by omega)]
  congr 1
  omega

/-- C2 at the channel id `1099511758851`, which `FromLndChanId` writes as `1x2x3`. -/
theorem chanId_roundtrip_witness :
    (1099511758851 < 2 ^ 64) ∧ FromLndChanId 1099511758851 = "1x2x3".toList ∧
      ToLndChanId id (FromLndChanId 1099511758851) = (1099511758851, none) :=
  ⟨by norm_num, by decide, chanId_roundtrip id 1099511758851 (by norm_num)⟩

/-- C5: `ToLndChanId` packs block, transaction index and output index into the
short-channel-id layout.  For `b < 2^24`, `t < 2^24`, `o < 2^16` the id
`decimal b ++ "x" ++ decimal t ++ "x" ++ decimal o` is accepted with result
`b * 2^40 + t * 2^16 + o`, and so is the same id written with the separator `X`. -/
theorem toLndChanId_packs (special : Char → Char) (b t o : Nat)
    (hb : b < 2 ^ 24) (ht : t < 2 ^ 24) (ho : o < 2 ^ 16) :
    ToLndChanId special (fmtNat b ++ 'x' :: (fmtNat t ++ 'x' :: fmtNat o))
        = (b * 2 ^ 40 + t * 2 ^ 16 + o, none) ∧
    ToLndChanId special (fmtNat b ++ 'X' :: (fmtNat t ++ 'X' :: fmtNat o))
        = (b * 2 ^ 40 + t * 2 ^ 16 + o, none) := by
  have e : b % 2 ^ 24 * 2 ^ 40 + t % 2 ^ 24 * 2 ^ 16 + o % 2 ^ 16
      = b * 2 ^ 40 + t * 2 ^ 16 + o := by
    rw [Nat.mod_eq_of_lt hb, Nat.mod_eq_of_lt ht, Nat.mod_eq_of_lt ho]
  constructor
  · rw [ToLndChanId_fmt special 'x' b t o (Or.inl rfl) (by omega) (by omega) (by omega), e]
  · rw [ToLndChanId_fmt special 'X' b t o (Or.inr rfl) (by omega) (by omega) (by omega), e]

/-- C5 at block 1, transaction 2, output 3: `1x2x3` and `1X2X3` both give
`1099511758851`. -/
theorem toLndChanId_packs_witness :
    ToLndChanId id "1x2x3".toList = (1099511758851, none) ∧
      ToLndChanId id "1X2X3".toList = (1099511758851, none) :=
  toLndChanId_packs id 1 2 3 (by norm_num) (by norm_num) (by norm_num)

/-- C6: `ToLndChanId` fails exactly on malformed input.  It returns an error if and
only if the lower-cased input is not three `x`-separated unsigned decimal integers
below `2^64`, and then the value is 0; on a well-formed input it succeeds, with block
and transaction index reduced modulo `2^24` and the output index modulo `2^16`. -/
theorem toLndChanId_fails_iff (special : Char → Char) (id : GoString) :
    ((ToLndChanId special id).2 ≠ none ↔ ¬ WellFormedChanId (ToLower special id)) ∧
    ((ToLndChanId special id).2 ≠ none → (ToLndChanId special id).1 = 0) ∧
    (∀ a b c, ChanIdParts (ToLower special id) a b c →
      IsUint64Literal a → IsUint64Literal b → IsUint64Literal c →
      ToLndChanId special id =
        (decVal a % 2 ^ 24 * 2 ^ 40 + decVal b % 2 ^ 24 * 2 ^ 16 + decVal c % 2 ^ 16,
          none)) := by
  refine ⟨⟨?_, ?_⟩, ToLndChanId_err_value special id, ?_⟩
  · rintro h ⟨a, b, c, hp, ha, hb, hc⟩
    rw [ToLndChanId_of_parts special id a b c hp ha hb hc] at h
    exact h rfl
  · intro h hnone
    exact h (ToLndChanId_ok_wellFormed special id hnone)
  · intro a b c hp ha hb hc
    exact ToLndChanId_of_parts special id a b c hp ha hb hc

/-- C6 at `16777216x0x0`, whose block overflows its 24-bit field: the call succeeds
with result 0.  And at `1x2`, which has two parts only: an error with value 0. -/
theorem toLndChanId_fails_iff_witness :
    ToLndChanId id "16777216x0x0".toList = (0, none) ∧
      (ToLndChanId id "1x2".toList).2 ≠ none ∧ (ToLndChanId id "1x2".toList).1 = 0 :=
  ⟨(toLndChanId_fails_iff id "16777216x0x0".toList).2.2
      "16777216".toList "0".toList "0".toList
      ⟨by decide, by decide, by decide, by decide⟩
      ⟨⟨by decide, by decide⟩, by decide⟩
      ⟨⟨by decide, by decide⟩, by decide⟩
      ⟨⟨by decide, by decide⟩, by decide⟩,
    by decide,
    (toLndChanId_fails_iff id "1x2".toList).2.1 (by decide)⟩

theorem removeMsat_cons_ne (c : Char) (cs : GoString) (h : c ≠ 'm') :
    removeMsat (c :: cs) = c :: removeMsat cs := by
  rw [removeMsat]
  intro rest hh
  simp only [List.cons.injEq] at hh
  exact fun _ => h hh

theorem removeMsat_digits_append (s t : GoString) (h : ∀ c ∈ s, IsDigit c) :
    removeMsat (s ++ t) = s ++ removeMsat t := by
  induction s with
  | nil => rfl
  | cons c cs ih =>
    have hc : c ≠ 'm' := by
      intro e
      have := h c (List.mem_cons_self _ _)
      rw [e] at this
      revert this
      decide
    rw [List.cons_append, removeMsat_cons_ne _ _ hc,
      ih (fun x hx => h x (List.mem_cons_of_mem _ hx)), List.cons_append]

/-- C10: `ConvertAmount` parses a millisatoshi amount.  For `n < 2^64` both
`decimal n ++ "msat"` and `decimal n` give `n`; an input that, with the occurrences
of `msat` removed, is no unsigned decimal integer below `2^64` gives 0. -/
theorem convertAmount_spec (n : Nat) (s : GoString) :
    (n < 2 ^ 64 →
      ConvertAmount (fmtNat n ++ "msat".toList) = n ∧ ConvertAmount (fmtNat n) = n) ∧
    (¬ IsUint64Literal (removeMsat s) → ConvertAmount s = 0) := by
  constructor
  · intro hn
    have h1 : removeMsat (fmtNat n ++ "msat".toList) = fmtNat n := by
      rw [removeMsat_digits_append _ _ (isDecimal_fmtNat n).2]
      have : removeMsat "msat".toList = [] := by decide
      rw [this, List.append_nil]
    have h2 : removeMsat (fmtNat n) = fmtNat n := by
      have := removeMsat_digits_append (fmtNat n) [] (isDecimal_fmtNat n).2
      rw [List.append_nil] at this
      rw [this]
      simp [removeMsat]
    unfold ConvertAmount
    simp only [h1, h2, ParseUint_fmtNat n hn, and_self]
  · intro hs
    have herr := (ParseUint_err_iff (removeMsat s)).2 hs
    unfold ConvertAmount
    simp only
    split
    · rfl
    · rename_i v heq
      rw [heq] at herr
      exact absurd rfl herr

/-- C10 at `n = 1234` and at inputs that are no amount: the empty string, a signed
number, a fraction, a word, `2^64`, and `mmsatsat`, which still reads `msat` once
the inner `msat` is removed. -/
theorem convertAmount_spec_witness :
    (ConvertAmount "1234msat".toList = 1234 ∧ ConvertAmount "1234".toList = 1234) ∧
      ConvertAmount "18446744073709551616msat".toList = 0 ∧
      ConvertAmount [] = 0 ∧ ConvertAmount "-5".toList = 0 ∧ ConvertAmount "+5".toList = 0 ∧
      ConvertAmount "1.5".toList = 0 ∧ ConvertAmount "abc".toList = 0 ∧
      ConvertAmount "12mmsatsat".toList = 0 :=
  ⟨(convertAmount_spec 1234 []).1 (by norm_num),
    (convertAmount_spec 0 "18446744073709551616msat".toList).2 (by decide),
    by decide, by decide, by decide, by decide, by decide, by decide⟩

/-! ## `ConvertFeatures`: the properties -/

/-- C1: `ConvertFeatures` decodes a hexadecimal bit-field with bit 0 least
significant.  For a base-16 literal of a non-negative integer `n` the returned map has
an entry under the decimal of `i` if and only if bit `i` of `n` is set, that entry is
`{Name: "", IsKnown: true, IsRequired: i is even}`, no other key is present, and the
map has `popcount n` entries. -/
theorem convertFeatures_bits (s : GoString) (n : Nat) (h : IsHexLiteral s (n : Int)) :
    ∃ m, ConvertFeatures s = some m ∧
      (∀ i, m.get? (fmtNat i) =
        if n.testBit i = true
        then some { Name := [], IsKnown := true, IsRequired := decide (i % 2 = 0) }
        else none) ∧
      (∀ k v, m.get? k = some v → ∃ i, k = fmtNat i ∧ n.testBit i = true) ∧
      m.len = popcount n := by
  refine ⟨_, ConvertFeatures_of_literal s n h, ?_⟩
  rw [Int.toNat_ofNat]
  obtain ⟨g1, g2, g3⟩ := featuresLoop_spec n n 0 GoMap.empty (Nat.le_refl n) (by
    intro k hk
    simp [GoMap.empty] at hk)
  have e1 : ∀ i, (featuresLoop n (n : Int) 0 GoMap.empty).get? (fmtNat i) =
      if n.testBit i = true
      then some { Name := [], IsKnown := true, IsRequired := decide (i % 2 = 0) }
      else none := by
    intro i
    rw [g1 i]
    simp [GoMap.get?_empty]
  refine ⟨e1, ?_, ?_⟩
  · intro k v hkv
    have hmem := mem_of_lookupEntry k v _ hkv
    obtain ⟨i, rfl⟩ := g2 k (List.mem_map_of_mem Prod.fst hmem)
    refine ⟨i, rfl, ?_⟩
    have := e1 i
    unfold GoMap.get? at this hkv
    rw [hkv] at this
    by_contra hb
    rw [if_neg hb] at this
    exact absurd this (by simp)
  · rw [g3]
    simp [GoMap.len, GoMap.empty]

/-- C1 at the literal `a` (binary 1010): the map has exactly the keys `1` and `3`, both
with `IsRequired = false`. -/
theorem convertFeatures_bits_witness :
    (∃ m, ConvertFeatures "a".toList = some m ∧
      (∀ i, m.get? (fmtNat i) =
        if (10 : Nat).testBit i = true
        then some { Name := [], IsKnown := true, IsRequired := decide (i % 2 = 0) }
        else none) ∧
      (∀ k v, m.get? k = some v → ∃ i, k = fmtNat i ∧ (10 : Nat).testBit i = true) ∧
      m.len = popcount 10) ∧
    (ConvertFeatures "a".toList).map (fun m => m.entries) =
      some [("3".toList, { Name := [], IsKnown := true, IsRequired := false }),
        ("1".toList, { Name := [], IsKnown := true, IsRequired := false })] ∧
    popcount 10 = 2 :=
  ⟨convertFeatures_bits "a".toList 10
      ⟨"a".toList, by decide, by decide, Or.inl ⟨rfl, by decide⟩⟩,
    by decide, by norm_num [popcount]⟩

/-- C7: `ConvertFeatures` returns nil exactly when its input is no base-16 integer
literal.  For a literal it returns a map (the loop ends), and the map is empty when the
value is zero or negative. -/
theorem convertFeatures_nil_iff (s : GoString) :
    (ConvertFeatures s = none ↔ ¬ ∃ z, IsHexLiteral s z) ∧
    (∀ z, IsHexLiteral s z →
      ∃ m, ConvertFeatures s = some m ∧ (z ≤ 0 → m.entries = [])) := by
  constructor
  · constructor
    · rintro h ⟨z, hz⟩
      rw [ConvertFeatures_of_literal s z hz] at h
      exact absurd h (by simp)
    · intro h
      unfold ConvertFeatures
      cases hs : SetString16 s with
      | none => rfl
      | some z => exact absurd ⟨z, (SetString16_iff s z).1 hs⟩ h
  · intro z hz
    refine ⟨_, ConvertFeatures_of_literal s z hz, ?_⟩
    intro hneg
    rw [featuresLoop_nonpos _ z hneg]
    rfl

/-- C7 at the empty string and at `xyz`, which are no literals, and at the literals
`0` and `-a`, which give an empty map that is not nil. -/
theorem convertFeatures_nil_iff_witness :
    ConvertFeatures [] = none ∧ ConvertFeatures "xyz".toList = none ∧
      (∃ m, ConvertFeatures "0".toList = some m ∧ ((0 : Int) ≤ 0 → m.entries = [])) ∧
      (∃ m, ConvertFeatures "-a".toList = some m ∧ ((-10 : Int) ≤ 0 → m.entries = [])) :=
  ⟨rfl, rfl,
    (convertFeatures_nil_iff "0".toList).2 0
      ⟨"0".toList, by decide, by decide, Or.inl ⟨rfl, by decide⟩⟩,
    (convertFeatures_nil_iff "-a".toList).2 (-10)
      ⟨"a".toList, by decide, by decide, Or.inr (Or.inr ⟨rfl, by decide⟩)⟩⟩

/-! ## Settings registry and channel cache: the properties -/

/-- C4: `GlobalSettings` is a key/value map under `Set`.  After `Set(k, v)` a
`Get(k')` returns `v` when `k' = k` and what it returned before otherwise; on a new
registry, where no key was set, `Get` returns the zero `Settings` value. -/
theorem globalSettings_get_set {Settings : Type} (zero : Settings)
    (s : GlobalSettings Settings) (k k' : GoString) (v : Settings) :
    (s.Set k v).Get zero k' = (if k' = k then v else s.Get zero k') ∧
      (NewGlobalSettings : GlobalSettings Settings).Get zero k' = zero := by
  constructor
  · unfold GlobalSettings.Get GlobalSettings.Set
    simp only
    rw [GoMap.get?_set]
    by_cases h : k' = k
    · simp [h]
    · simp [h]
  · rfl

/-- C8: `DeferredCommit` is a per-key compare-and-set against the store.  For every
pending entry `name -> (old, new)` the store afterwards holds `new` under
`env ++ "_" ++ name` if that key was absent or held `old`, and its previous value
otherwise; a key without pending entry is unchanged; the pending map is empty and the
result is `true`.  A `DeferredSet` replaces an earlier pending pair of the same
name and leaves the other names alone. -/
theorem deferredCommit_compare_and_set (c : RedisChannelCache) :
    (∀ name p, c.deferredCache.get? name = some p →
      (c.DeferredCommit).1.client.get? (c.storeKey name) =
        if c.client.get? (c.storeKey name) = none ∨
            c.client.get? (c.storeKey name) = some p.OldValue
        then some p.NewValue else c.client.get? (c.storeKey name)) ∧
    (∀ key, (∀ name, c.deferredCache.get? name ≠ none → key ≠ c.storeKey name) →
      (c.DeferredCommit).1.client.get? key = c.client.get? key) ∧
    (c.DeferredCommit).1.deferredCache.entries = [] ∧
    (c.DeferredCommit).2 = true ∧
    (c.DeferredCommit).1.env = c.env ∧
    (∀ name old new name',
      (c.DeferredSet name old new).deferredCache.get? name' =
        if name' = name then some ⟨old, new⟩ else c.deferredCache.get? name') ∧
    (∀ name old new, (c.DeferredSet name old new).client = c.client ∧
      (c.DeferredSet name old new).env = c.env) := by
  refine ⟨?_, ?_, ?_, rfl, ?_, ?_, ?_⟩
  · intro name p hp
    have hmem := mem_of_lookupEntry name p c.deferredCache.entries hp
    exact commitFold_entry c.deferredCache.entries c c.deferredCache.nodup (name, p) hmem
  · intro key h
    apply commitFold_frame c.deferredCache.entries c key
    intro e he
    apply h e.1
    have := lookupEntry_of_mem c.deferredCache.entries c.deferredCache.nodup e he
    unfold GoMap.get?
    rw [this]
    simp
  · exact GoMap.deleteAll_entries _
  · exact (commitFold_env c.deferredCache.entries c).1
  · intro name old new name'
    exact GoMap.get?_set _ _ _ _
  · intro name old new
    exact ⟨rfl, rfl⟩

/-- C9: `DeferredRevert` discards the pending writes without touching the store.
Whatever `DeferredSet` calls were made, it returns `true`, leaves the store and the
environment as they were and the pending map empty, and a `DeferredCommit` right after
it leaves the store as it was. -/
theorem deferredRevert_discards (c : RedisChannelCache)
    (calls : List (GoString × GoString × GoString)) :
    let c1 := calls.foldl (fun acc x => acc.DeferredSet x.1 x.2.1 x.2.2) c
    c1.client = c.client ∧
    (c1.DeferredRevert).2 = true ∧
    (c1.DeferredRevert).1.client = c.client ∧
    (c1.DeferredRevert).1.env = c.env ∧
    (c1.DeferredRevert).1.deferredCache.entries = [] ∧
    ((c1.DeferredRevert).1.DeferredCommit).1.client = c.client ∧
    ((c1.DeferredRevert).1.DeferredCommit).2 = true := by
  have hfold : ∀ (l : List (GoString × GoString × GoString)) (d : RedisChannelCache),
      (l.foldl (fun acc x => acc.DeferredSet x.1 x.2.1 x.2.2) d).client = d.client ∧
      (l.foldl (fun acc x => acc.DeferredSet x.1 x.2.1 x.2.2) d).env = d.env := by
    intro l
    induction l with
    | nil => intro d; exact ⟨rfl, rfl⟩
    | cons x l ih =>
      intro d
      rw [List.foldl_cons]
      exact ih (d.DeferredSet x.1 x.2.1 x.2.2)
  intro c1
  have h1 : c1.client = c.client := (hfold calls c).1
  have h2 : c1.env = c.env := (hfold calls c).2
  have h3 : (c1.DeferredRevert).1.deferredCache.entries = [] :=
    GoMap.deleteAll_entries _
  refine ⟨h1, rfl, h1, h2, h3, ?_, rfl⟩
  unfold RedisChannelCache.DeferredCommit
  simp only [h3, List.foldl_nil]
  exact h1

/-- C8 on a cache with store `develop_a = 1`, `develop_b = 9` and pending writes
`a: 1 -> 2`, `b: 1 -> 3`, `c: "" -> 5`: the commit writes `develop_a = 2` (the old
value matched), keeps `develop_b = 9` (it did not) and creates `develop_c = 5` (the key
was absent), and leaves the key `x` absent. -/
theorem deferredCommit_compare_and_set_witness :
    (sampleCache.DeferredCommit).1.client.get? "develop_a".toList = some "2".toList ∧
    (sampleCache.DeferredCommit).1.client.get? "develop_b".toList = some "9".toList ∧
    (sampleCache.DeferredCommit).1.client.get? "develop_c".toList = some "5".toList ∧
    (sampleCache.DeferredCommit).1.client.get? "x".toList = sampleCache.client.get? "x".toList ∧
    (sampleCache.DeferredCommit).1.deferredCache.entries = [] :=
  ⟨(deferredCommit_compare_and_set sampleCache).1 "a".toList ⟨"1".toList, "2".toList⟩
      (by decide),
    (deferredCommit_compare_and_set sampleCache).1 "b".toList ⟨"1".toList, "3".toList⟩
      (by decide),
    (deferredCommit_compare_and_set sampleCache).1 "c".toList ⟨[], "5".toList⟩ (by decide),
    (deferredCommit_compare_and_set sampleCache).2.1 "x".toList (by
      intro name _
      unfold RedisChannelCache.storeKey
      cases name <;> simp [sampleCache]),
    (deferredCommit_compare_and_set sampleCache).2.2.1⟩

/-- C9 on the same cache after two more `DeferredSet` calls: the revert leaves the
store as it was and a commit after it changes nothing. -/
theorem deferredRevert_discards_witness :
    (((sampleCache.DeferredSet "a".toList "1".toList "7".toList).DeferredSet
        "d".toList [] "8".toList).DeferredRevert).1.client = sampleCache.client ∧
    ((((sampleCache.DeferredSet "a".toList "1".toList "7".toList).DeferredSet
        "d".toList [] "8".toList).DeferredRevert).1.DeferredCommit).1.client
      = sampleCache.client :=
  have h := deferredRevert_discards sampleCache
    [("a".toList, "1".toList, "7".toList), ("d".toList, [], "8".toList)]
  ⟨h.2.2.1, h.2.2.2.2.2.1⟩

end Agent
